import Mathlib

/-!
# Camera, complex-number and dual-number arithmetic of the two graphics demos

Shallow embedding of the computational core of

* `source/Transzformáció komplex számokkal.cpp` (namespace `Komplex`), and
* `source/clifford.cpp` (namespace `Cliff`).

The C++ type `float` is read as an exact field `F` (the theorems take `F = ℝ`, the
definitions also run over `ℚ`).  Rounding and overflow are not modelled.  A division whose
divisor is a run-time value is the checked division `fdiv`: a zero divisor makes the
float result `inf` or `NaN`, which is no real number, so the model answers `none`.
A division by a nonzero literal (`wWx/2`, `-t/2`) is the division of the field.
The libm functions `sin`, `cos`, `sqrt` are parameters of the definitions that call them;
the theorems pass `Real.sin`, `Real.cos`, `Real.sqrt`.
-/

/-- Float division `a / b` read over an exact field: with a zero divisor the float result is
`inf` or `NaN`, which the model reports as `none`. -/
def fdiv {F : Type} [Field F] [DecidableEq F] (a b : F) : Option F :=
  if b = 0 then none else some (a / b)

/-! ## `mat4` (textually identical in both source files) -/

/-- Row-major 4x4 matrix, `float m[4][4]`. -/
@[ext]
structure mat4 (F : Type) where
  m : Fin 4 → Fin 4 → F

namespace mat4

variable {F : Type} [Field F]

/-- The sixteen-argument constructor `mat4(m00, ..., m33)`. -/
def ofEntries (m00 m01 m02 m03 m10 m11 m12 m13 m20 m21 m22 m23 m30 m31 m32 m33 : F) :
    mat4 F :=
  ⟨![![m00, m01, m02, m03], ![m10, m11, m12, m13], ![m20, m21, m22, m23],
     ![m30, m31, m32, m33]]⟩

/-- The product `mat4::operator*`: for every `i`, `j` the entry starts at `0` and accumulates
`m[i][k] * right.m[k][j]` for `k = 0, 1, 2, 3` in this order. -/
def mul (l right : mat4 F) : mat4 F :=
  ⟨fun i j => (List.finRange 4).foldl (fun acc k => acc + l.m i k * right.m k j) 0⟩

/-- The 4x4 identity matrix (the specification's reference value; the source has no
constructor for it). -/
def identity : mat4 F :=
  ofEntries 1 0 0 0  0 1 0 0  0 0 1 0  0 0 0 1

end mat4

/-! ## The complex-number program -/

namespace Komplex

/-- The source's `struct Complex { float x, y; }`. -/
@[ext]
structure Complex (F : Type) where
  x : F
  y : F
deriving DecidableEq, Repr

namespace Complex

variable {F : Type} [Field F]

/-- The source's `Complex::operator+`. -/
def add (a r : Complex F) : Complex F := ⟨a.x + r.x, a.y + r.y⟩

/-- The source's `Complex::operator-`. -/
def sub (a r : Complex F) : Complex F := ⟨a.x - r.x, a.y - r.y⟩

/-- The source's `Complex::operator*`. -/
def mul (a r : Complex F) : Complex F := ⟨a.x * r.x - a.y * r.y, a.x * r.y + a.y * r.x⟩

/-- The source's `Complex::operator/`: `l = r.x*r.x + r.y*r.y`, then
`(*this) * Complex(r.x / l, -r.y / l)`. -/
def div [DecidableEq F] (a r : Complex F) : Option (Complex F) := do
  let l := r.x * r.x + r.y * r.y
  let cx ← fdiv r.x l
  let cy ← fdiv (-r.y) l
  pure (mul a ⟨cx, cy⟩)

end Complex

/-- The source's `Polar(r, phi) = Complex(r * cos(phi), r * sin(phi))`. -/
def Polar {F : Type} [Field F] (cos sin : F → F) (r phi : F) : Complex F :=
  ⟨r * cos phi, r * sin phi⟩

/-- The source's `struct Camera { float wCx, wCy; float wWx, wWy; }` (centre and extent of
the window in world coordinates). -/
structure Camera (F : Type) where
  wCx : F
  wCy : F
  wWx : F
  wWy : F

namespace Camera

variable {F : Type} [Field F]

/-- View matrix `Camera::V()`: translates the centre to the origin. -/
def V (c : Camera F) : mat4 F :=
  mat4.ofEntries 1 0 0 0
                 0 1 0 0
                 0 0 1 0
                 (-c.wCx) (-c.wCy) 0 1

/-- Projection matrix `Camera::P()` with the entries `2/wWx` and `2/wWy`. -/
def P [DecidableEq F] (c : Camera F) : Option (mat4 F) := do
  let sx ← fdiv 2 c.wWx
  let sy ← fdiv 2 c.wWy
  pure (mat4.ofEntries sx 0 0 0
                       0 sy 0 0
                       0 0 1 0
                       0 0 0 1)

/-- Inverse view matrix `Camera::Vinv()`. -/
def Vinv (c : Camera F) : mat4 F :=
  mat4.ofEntries 1 0 0 0
                 0 1 0 0
                 0 0 1 0
                 c.wCx c.wCy 0 1

/-- Inverse projection matrix `Camera::Pinv()` with the entries `wWx/2` and `wWy/2`. -/
def Pinv (c : Camera F) : mat4 F :=
  mat4.ofEntries (c.wWx / 2) 0 0 0
                 0 (c.wWy / 2) 0 0
                 0 0 1 0
                 0 0 0 1

/-- The source's `Camera::Animate(t)`: re-assigns the constants `0, 0, 20, 20`. -/
def Animate (_c : Camera F) (_t : F) : Camera F := ⟨0, 0, 20, 20⟩

end Camera

/-- The source's `class Object`: the base vertex list `points` (the GL handles `vao`, `vbo`
belong to the renderer and are left out). -/
structure Object (F : Type) where
  points : List (Complex F)

namespace Object

variable {F : Type} [Field F]

/-- The four `push_back` calls of the constructor `Object::Object()`. -/
def new : Object F := ⟨[⟨-1, -1⟩, ⟨0, 1⟩, ⟨1, -1⟩, ⟨0, 0⟩]⟩

/-- The body of the loop of `Object::Animate(t)`, the value stored in `transPoints[i]` for
`p = points[i]`:
`((p - Complex(1, -1)) * Polar(2, t) + Complex(1, -1) + Complex(2, 3)) * Polar(0.8, -t/2)`. -/
def transPoint (cos sin : F → F) (t : F) (p : Complex F) : Complex F :=
  Complex.mul
    (Complex.add (Complex.add (Complex.mul (Complex.sub p ⟨1, -1⟩) (Polar cos sin 2 t)) ⟨1, -1⟩)
      ⟨2, 3⟩)
    (Polar cos sin 0.8 (-t / 2))

/-- The source's `Object::Animate(t)`: the vector `transPoints` handed to `glBufferData`, one
entry per base vertex, in the order of `points`. -/
def Animate (cos sin : F → F) (o : Object F) (t : F) : List (Complex F) :=
  o.points.map (transPoint cos sin t)

end Object

end Komplex

/-! ## The Clifford (dual-number) program -/

namespace Cliff

/-- The source's `struct vec2 { float x, y; }`. -/
@[ext]
structure vec2 (F : Type) where
  x : F
  y : F
deriving DecidableEq, Repr

/-- The source's `struct Camera` of `clifford.cpp`. -/
structure Camera (F : Type) where
  wCx : F
  wCy : F
  wWx : F
  wWy : F

namespace Camera

variable {F : Type} [Field F]

/-- View matrix `Camera::V()`: translates the centre to the origin. -/
def V (c : Camera F) : mat4 F :=
  mat4.ofEntries 1 0 0 0
                 0 1 0 0
                 0 0 1 0
                 (-c.wCx) (-c.wCy) 0 1

/-- Projection matrix `Camera::P()` with the entries `1/wWx` and `1/wWy`. -/
def P [DecidableEq F] (c : Camera F) : Option (mat4 F) := do
  let sx ← fdiv 1 c.wWx
  let sy ← fdiv 1 c.wWy
  pure (mat4.ofEntries sx 0 0 0
                       0 sy 0 0
                       0 0 1 0
                       0 0 0 1)

/-- Inverse view matrix `Camera::Vinv()`. -/
def Vinv (c : Camera F) : mat4 F :=
  mat4.ofEntries 1 0 0 0
                 0 1 0 0
                 0 0 1 0
                 c.wCx c.wCy 0 1

/-- Inverse projection matrix `Camera::Pinv()` with the entries `wWx/1` and `wWy/1`. -/
def Pinv (c : Camera F) : mat4 F :=
  mat4.ofEntries (c.wWx / 1) 0 0 0
                 0 (c.wWy / 1) 0 0
                 0 0 1 0
                 0 0 0 1

/-- The source's `Camera::Animate(t)`: re-assigns the constants `0, 0, 10, 10`. -/
def Animate (_c : Camera F) (_t : F) : Camera F := ⟨0, 0, 10, 10⟩

end Camera

/-- The source's `struct Clifford { float f, d; }`: a value `f` and its derivative `d`. -/
@[ext]
structure Clifford (F : Type) where
  f : F
  d : F
deriving DecidableEq, Repr

namespace Clifford

variable {F : Type} [Field F]

/-- The implicit conversion `float -> Clifford` through the constructor
`Clifford(float f0 = 0, float d0 = 0)`: the derivative defaults to `0`. -/
def ofFloat (f0 : F) : Clifford F := ⟨f0, 0⟩

/-- The source's `Clifford::operator+`. -/
def add (a r : Clifford F) : Clifford F := ⟨a.f + r.f, a.d + r.d⟩

/-- The source's `Clifford::operator-`. -/
def sub (a r : Clifford F) : Clifford F := ⟨a.f - r.f, a.d - r.d⟩

/-- The source's `Clifford::operator*`. -/
def mul (a r : Clifford F) : Clifford F := ⟨a.f * r.f, a.f * r.d + a.d * r.f⟩

/-- The source's `Clifford::operator/`: `l = r.f * r.f`, then
`(*this) * Clifford(r.f / l, -r.d / l)`. -/
def div [DecidableEq F] (a r : Clifford F) : Option (Clifford F) := do
  let l := r.f * r.f
  let cf ← fdiv r.f l
  let cd ← fdiv (-r.d) l
  pure (mul a ⟨cf, cd⟩)

/-- The source's `Clifford::T(t) = Clifford(t, 1)`. -/
def T (t : F) : Clifford F := ⟨t, 1⟩

/-- The source's `Clifford::Sin(t) = Clifford(sin(t), cos(t))`. -/
def Sin (sin cos : F → F) (t : F) : Clifford F := ⟨sin t, cos t⟩

/-- The source's `Clifford::Cos(t) = Clifford(cos(t), -sin(t))`. -/
def Cos (sin cos : F → F) (t : F) : Clifford F := ⟨cos t, -sin t⟩

/-- The quotient rule of dual numbers as the specification writes it,
`(a.f / r.f, (a.d·r.f - a.f·r.d) / r.f²)`; the reference value `operator/` is compared
with. -/
def quotientRule (a r : Clifford F) : Clifford F :=
  ⟨a.f / r.f, (a.d * r.f - a.f * r.d) / r.f ^ 2⟩

end Clifford

/-- The active `Path(t, x, y)` of the source: `r = 3.0f`, `x = Sin(t) * r`, `y = Cos(t) * r`,
the float `r` converted to a `Clifford`; the result is the pair of out-parameters `(x, y)`. -/
def Path {F : Type} [Field F] (sin cos : F → F) (t : F) : Clifford F × Clifford F :=
  let r : F := 3
  (Clifford.mul (Clifford.Sin sin cos t) (Clifford.ofFloat r),
   Clifford.mul (Clifford.Cos sin cos t) (Clifford.ofFloat r))

namespace Object

/-- The source's `Object::Animate(t)`: the arguments `(point, tangent)` of its call of `Draw`,
`point = (x.f, y.f)` and `tangent = (x.d / tangentLength, y.d / tangentLength)` with
`tangentLength = sqrt(x.d * x.d + y.d * y.d)`. -/
def Animate {F : Type} [Field F] [DecidableEq F] (sin cos sqrt : F → F) (t : F) :
    Option (vec2 F × vec2 F) := do
  let (x, y) := Path sin cos t
  let tangentLength := sqrt (x.d * x.d + y.d * y.d)
  let tx ← fdiv x.d tangentLength
  let ty ← fdiv y.d tangentLength
  pure (⟨x.f, y.f⟩, ⟨tx, ty⟩)

/-- The matrix `MVPTransform = camera.V() * camera.P()` that `Object::Draw` uploads, row-major
(`GL_TRUE`), as the uniform `MVP`. -/
def MVPTransform {F : Type} [Field F] [DecidableEq F] (camera : Camera F) :
    Option (mat4 F) := do
  let P ← Camera.P camera
  pure (mat4.mul (Camera.V camera) P)

end Object

/-- The product `vec4 * mat4` of the vertex shader, `gl_Position = vec4(p.x, p.y, 0, 1) * MVP`:
a row vector times the matrix, entry `j` being the sum of `v[i] * m[i][j]` over
`i = 0, 1, 2, 3`, accumulated from `0` as in `vec4::operator*` of the complex-number
program. -/
def rowMul {F : Type} [Field F] (v : Fin 4 → F) (mat : mat4 F) : Fin 4 → F :=
  fun j => (List.finRange 4).foldl (fun acc i => acc + v i * mat.m i j) 0

end Cliff

/-! ## Evaluation lemmas shared by the theorems -/

/-- Every entry of a `mat4` product, with the accumulation loop unrolled. -/
theorem mat4.mul_m {F : Type} [Field F] (l r : mat4 F) (i j : Fin 4) :
    (mat4.mul l r).m i j
      = 0 + l.m i 0 * r.m 0 j + l.m i 1 * r.m 1 j + l.m i 2 * r.m 2 j + l.m i 3 * r.m 3 j := by
  simp [mat4.mul, List.finRange, List.foldl]


/-- C1. Complex round trip: for all `a` and all `b` with `b.x² + b.y² ≠ 0`, dividing the
product `a * b` by `b` gives back exactly `a` (both components), floats read as reals. -/
theorem complex_mul_div_cancel (a b : Komplex.Complex ℝ) (hb : b.x ^ 2 + b.y ^ 2 ≠ 0) :
    Komplex.Complex.div (Komplex.Complex.mul a b) b = some a := by
  have hl : b.x * b.x + b.y * b.y ≠ 0 := by
    intro h
    apply hb
    rw [← h]
    ring
  simp only [Komplex.Complex.div, fdiv, if_neg hl, Komplex.Complex.mul, bind, Option.bind,
    pure, Option.some.injEq]
  ext
  · show (a.x * b.x - a.y * b.y) * (b.x / (b.x * b.x + b.y * b.y)) -
      (a.x * b.y + a.y * b.x) * (-b.y / (b.x * b.x + b.y * b.y)) = a.x
    field_simp
    ring
  · show (a.x * b.x - a.y * b.y) * (-b.y / (b.x * b.x + b.y * b.y)) +
      (a.x * b.y + a.y * b.x) * (b.x / (b.x * b.x + b.y * b.y)) = a.y
    field_simp
    ring

/-- Witness of C1 at `a = (1, 2)`, `b = (3, 4)`. -/
theorem complex_mul_div_cancel_witness :
    ((3 : ℝ) ^ 2 + (4 : ℝ) ^ 2 ≠ 0) ∧
      Komplex.Complex.div (Komplex.Complex.mul (⟨1, 2⟩ : Komplex.Complex ℝ) ⟨3, 4⟩) ⟨3, 4⟩
        = some ⟨1, 2⟩ :=
  ⟨by norm_num, complex_mul_div_cancel ⟨1, 2⟩ ⟨3, 4⟩ (by norm_num)⟩

/-- C2. For every camera (in particular every centre `(wCx, wCy)`) the product
`V() * Vinv()` is the 4x4 identity matrix, in the complex-number program and in the
Clifford program. -/
theorem camera_V_mul_Vinv (c : Komplex.Camera ℝ) (c' : Cliff.Camera ℝ) :
    mat4.mul (Komplex.Camera.V c) (Komplex.Camera.Vinv c) = mat4.identity ∧
      mat4.mul (Cliff.Camera.V c') (Cliff.Camera.Vinv c') = mat4.identity := by
  constructor <;> ext i j <;> rw [mat4.mul_m] <;> fin_cases i <;> fin_cases j <;>
    simp [Komplex.Camera.V, Komplex.Camera.Vinv, Cliff.Camera.V, Cliff.Camera.Vinv,
      mat4.identity, mat4.ofEntries, Matrix.vecHead, Matrix.vecTail]

/-- C3 (counterexample). With the extent `wWx = wWy = 0` the entries `2/wWx` and `1/wWx` of
`P()` are divisions by zero, so `P() * Pinv()` is not the identity matrix, in either
program. -/
theorem camera_P_mul_Pinv_zero_extent :
    Option.map (fun P => mat4.mul P (Komplex.Camera.Pinv ⟨0, 0, 0, 0⟩))
        (Komplex.Camera.P (⟨0, 0, 0, 0⟩ : Komplex.Camera ℝ)) ≠ some mat4.identity ∧
      Option.map (fun P => mat4.mul P (Cliff.Camera.Pinv ⟨0, 0, 0, 0⟩))
        (Cliff.Camera.P (⟨0, 0, 0, 0⟩ : Cliff.Camera ℝ)) ≠ some mat4.identity := by
  constructor <;> simp [Komplex.Camera.P, Cliff.Camera.P, fdiv]

/-- C3 (amended). For every centre and every extent with `wWx ≠ 0` and `wWy ≠ 0` the product
`P() * Pinv()` is the 4x4 identity matrix, in the complex-number program
(`P = diag(2/wWx, 2/wWy, 1, 1)`, `Pinv = diag(wWx/2, wWy/2, 1, 1)`) and in the Clifford
program (`P = diag(1/wWx, 1/wWy, 1, 1)`, `Pinv = diag(wWx/1, wWy/1, 1, 1)`). -/
theorem camera_P_mul_Pinv (wCx wCy wWx wWy : ℝ) (hx : wWx ≠ 0) (hy : wWy ≠ 0) :
    Option.map (fun P => mat4.mul P (Komplex.Camera.Pinv ⟨wCx, wCy, wWx, wWy⟩))
        (Komplex.Camera.P ⟨wCx, wCy, wWx, wWy⟩) = some mat4.identity ∧
      Option.map (fun P => mat4.mul P (Cliff.Camera.Pinv ⟨wCx, wCy, wWx, wWy⟩))
        (Cliff.Camera.P ⟨wCx, wCy, wWx, wWy⟩) = some mat4.identity := by
  constructor
  · simp only [Komplex.Camera.P, fdiv, if_neg hx, if_neg hy, bind, Option.bind, pure,
      Option.map_some', Option.some.injEq]
    ext i j
    rw [mat4.mul_m]
    fin_cases i <;> fin_cases j <;>
      simp [Komplex.Camera.Pinv, mat4.identity, mat4.ofEntries, Matrix.vecHead,
        Matrix.vecTail, hx, hy]
  · simp only [Cliff.Camera.P, fdiv, if_neg hx, if_neg hy, bind, Option.bind, pure,
      Option.map_some', Option.some.injEq]
    ext i j
    rw [mat4.mul_m]
    fin_cases i <;> fin_cases j <;>
      simp [Cliff.Camera.Pinv, mat4.identity, mat4.ofEntries, Matrix.vecHead,
        Matrix.vecTail, hx, hy]

/-- Witness of C3 (amended) at the centre `(0, 0)` and the extent `(20, 10)`. -/
theorem camera_P_mul_Pinv_witness :
    ((20 : ℝ) ≠ 0 ∧ (10 : ℝ) ≠ 0) ∧
      (Option.map (fun P => mat4.mul P (Komplex.Camera.Pinv ⟨0, 0, 20, 10⟩))
          (Komplex.Camera.P (⟨0, 0, 20, 10⟩ : Komplex.Camera ℝ)) = some mat4.identity ∧
        Option.map (fun P => mat4.mul P (Cliff.Camera.Pinv ⟨0, 0, 20, 10⟩))
          (Cliff.Camera.P (⟨0, 0, 20, 10⟩ : Cliff.Camera ℝ)) = some mat4.identity) :=
  ⟨⟨by norm_num, by norm_num⟩, camera_P_mul_Pinv 0 0 20 10 (by norm_num) (by norm_num)⟩

/-- C4. Dual-number product rule: `(f1, d1) * (f2, d2) = (f1*f2, f1*d2 + d1*f2)`; in
particular the derivative of a product is `d1.f * d2.d + d1.d * d2.f`. -/
theorem clifford_mul_product_rule (f1 d1 f2 d2 : ℝ) (a b : Cliff.Clifford ℝ) :
    Cliff.Clifford.mul ⟨f1, d1⟩ ⟨f2, d2⟩ = ⟨f1 * f2, f1 * d2 + d1 * f2⟩ ∧
      (Cliff.Clifford.mul a b).f = a.f * b.f ∧
      (Cliff.Clifford.mul a b).d = a.f * b.d + a.d * b.f :=
  ⟨rfl, rfl, rfl⟩

/-- C5. Dual lifts: `Sin(t) = (sin t, cos t)`, `Cos(t) = (cos t, -sin t)`, `T(t) = (t, 1)`
for every real `t`, and for each lift the derivative component is the derivative at `t` of
the function that gives the value component. -/
theorem clifford_lifts (t : ℝ) :
    (Cliff.Clifford.Sin Real.sin Real.cos t = ⟨Real.sin t, Real.cos t⟩ ∧
      Cliff.Clifford.Cos Real.sin Real.cos t = ⟨Real.cos t, -Real.sin t⟩ ∧
      Cliff.Clifford.T t = ⟨t, 1⟩) ∧
    HasDerivAt (fun s => (Cliff.Clifford.Sin Real.sin Real.cos s).f)
      (Cliff.Clifford.Sin Real.sin Real.cos t).d t ∧
    HasDerivAt (fun s => (Cliff.Clifford.Cos Real.sin Real.cos s).f)
      (Cliff.Clifford.Cos Real.sin Real.cos t).d t ∧
    HasDerivAt (fun s : ℝ => (Cliff.Clifford.T s).f) (Cliff.Clifford.T t).d t :=
  ⟨⟨rfl, rfl, rfl⟩, Real.hasDerivAt_sin t, Real.hasDerivAt_cos t, hasDerivAt_id t⟩

/-- The out-parameters of `Path` for every real `t`, with the products multiplied out. -/
theorem Cliff.Path_eq (t : ℝ) :
    Cliff.Path Real.sin Real.cos t
      = (⟨3 * Real.sin t, 3 * Real.cos t⟩, ⟨3 * Real.cos t, -(3 * Real.sin t)⟩) := by
  simp only [Cliff.Path, Cliff.Clifford.mul, Cliff.Clifford.Sin, Cliff.Clifford.Cos,
    Cliff.Clifford.ofFloat]
  refine Prod.ext (Cliff.Clifford.ext ?_ ?_) (Cliff.Clifford.ext ?_ ?_) <;> simp <;> ring

/-- C6. Path at `t = 0` (circle of radius 3): `x = (0, 3)` and `y = (3, 0)` as
(value, derivative), and `Object::Animate(0)` passes the point `(0, 3)` and the normalized
tangent `(x.d / v, y.d / v) = (1, 0)` to `Draw`. -/
theorem path_at_zero :
    Cliff.Path Real.sin Real.cos 0 = (⟨0, 3⟩, ⟨3, 0⟩) ∧
      Cliff.Object.Animate Real.sin Real.cos Real.sqrt 0 = some (⟨0, 3⟩, ⟨1, 0⟩) := by
  have hP : Cliff.Path Real.sin Real.cos 0 = (⟨0, 3⟩, ⟨3, 0⟩) := by
    rw [Cliff.Path_eq]
    simp
  have hs : Real.sqrt (3 * 3 + 0 * 0) = 3 := by
    rw [show (3 * 3 + 0 * 0 : ℝ) = 3 ^ 2 by norm_num]
    exact Real.sqrt_sq (by norm_num)
  refine ⟨hP, ?_⟩
  simp only [Cliff.Object.Animate, hP, hs, fdiv]
  norm_num

/-- C7. `Path` is the circle of radius 3 with its exact derivative: for every real `t`,
`x = (3 sin t, 3 cos t)` and `y = (3 cos t, -3 sin t)`, the point lies on the circle
`x.f² + y.f² = 3²`, and `(x.d, y.d)` is the time-derivative of `(x.f, y.f)` at `t`. -/
theorem path_circle (t : ℝ) :
    Cliff.Path Real.sin Real.cos t
        = (⟨3 * Real.sin t, 3 * Real.cos t⟩, ⟨3 * Real.cos t, -(3 * Real.sin t)⟩) ∧
      (Cliff.Path Real.sin Real.cos t).1.f ^ 2 + (Cliff.Path Real.sin Real.cos t).2.f ^ 2
        = 3 ^ 2 ∧
      HasDerivAt (fun s => (Cliff.Path Real.sin Real.cos s).1.f)
        (Cliff.Path Real.sin Real.cos t).1.d t ∧
      HasDerivAt (fun s => (Cliff.Path Real.sin Real.cos s).2.f)
        (Cliff.Path Real.sin Real.cos t).2.d t := by
  refine ⟨Cliff.Path_eq t, ?_, ?_, ?_⟩
  · rw [Cliff.Path_eq]
    show (3 * Real.sin t) ^ 2 + (3 * Real.cos t) ^ 2 = 3 ^ 2
    nlinarith [Real.sin_sq_add_cos_sq t]
  · simp only [Cliff.Path_eq]
    exact (Real.hasDerivAt_sin t).const_mul 3
  · simp only [Cliff.Path_eq]
    have h := (Real.hasDerivAt_cos t).const_mul 3
    rw [mul_neg] at h
    exact h

/-- The two polar factors of `Object::Animate(0)`: `Polar(2, 0) = Complex(2, 0)` and
`Polar(0.8, -0/2) = Complex(0.8, 0)`. -/
theorem Komplex.Polar_at_zero :
    Komplex.Polar Real.cos Real.sin 2 0 = ⟨2, 0⟩ ∧
      Komplex.Polar Real.cos Real.sin 0.8 (-0 / 2) = ⟨0.8, 0⟩ := by
  constructor <;> simp [Komplex.Polar]

/-- The per-vertex transform of `Object::Animate(0)` in coordinates:
`p ↦ (1.6 p.x + 0.8, 1.6 p.y + 3.2)`. -/
theorem Komplex.Object.transPoint_zero (p : Komplex.Complex ℝ) :
    Komplex.Object.transPoint Real.cos Real.sin 0 p
      = ⟨8 / 5 * p.x + 4 / 5, 8 / 5 * p.y + 16 / 5⟩ := by
  simp only [Komplex.Object.transPoint, Komplex.Polar_at_zero.1, Komplex.Polar_at_zero.2,
    Komplex.Complex.mul, Komplex.Complex.add, Komplex.Complex.sub]
  ext
  · show ((p.x - 1) * 2 - (p.y - -1) * 0 + 1 + 2) * 0.8
      - ((p.x - 1) * 0 + (p.y - -1) * 2 + -1 + 3) * 0 = 8 / 5 * p.x + 4 / 5
    norm_num
    ring
  · show ((p.x - 1) * 2 - (p.y - -1) * 0 + 1 + 2) * 0
      + ((p.x - 1) * 0 + (p.y - -1) * 2 + -1 + 3) * 0.8 = 8 / 5 * p.y + 16 / 5
    norm_num
    ring

/-- C8. End-to-end at `t = 0`: `Polar(2, 0) = (2, 0)`, `Polar(0.8, -0/2) = (0.8, 0)`, every
vertex `p` is mapped to `((p - (1,-1)) * (2,0) + (1,-1) + (2,3)) * (0.8,0)`, and the base
vertices `[(-1,-1), (0,1), (1,-1), (0,0)]` give, in the same order and with the same length 4,
`[(-0.8,1.6), (0.8,4.8), (2.4,1.6), (0.8,3.2)]` (written with `0.8 = 4/5`). -/
theorem animate_at_zero :
    (Komplex.Polar Real.cos Real.sin 2 0 = ⟨2, 0⟩ ∧
      Komplex.Polar Real.cos Real.sin 0.8 (-0 / 2) = ⟨4 / 5, 0⟩) ∧
    (∀ p : Komplex.Complex ℝ,
      Komplex.Object.transPoint Real.cos Real.sin 0 p
        = Komplex.Complex.mul
            (Komplex.Complex.add
              (Komplex.Complex.add (Komplex.Complex.mul (Komplex.Complex.sub p ⟨1, -1⟩) ⟨2, 0⟩)
                ⟨1, -1⟩)
              ⟨2, 3⟩)
            ⟨4 / 5, 0⟩) ∧
    (Komplex.Object.new : Komplex.Object ℝ).points = [⟨-1, -1⟩, ⟨0, 1⟩, ⟨1, -1⟩, ⟨0, 0⟩] ∧
    Komplex.Object.Animate Real.cos Real.sin Komplex.Object.new 0
      = [⟨-4 / 5, 8 / 5⟩, ⟨4 / 5, 24 / 5⟩, ⟨12 / 5, 8 / 5⟩, ⟨4 / 5, 16 / 5⟩] ∧
    (Komplex.Object.Animate Real.cos Real.sin Komplex.Object.new 0).length = 4 := by
  have h08 : Komplex.Polar Real.cos Real.sin 0.8 (-0 / 2) = ⟨4 / 5, 0⟩ := by
    rw [Komplex.Polar_at_zero.2]
    norm_num
  refine ⟨⟨Komplex.Polar_at_zero.1, h08⟩, ?_, rfl, ?_, ?_⟩
  · intro p
    simp only [Komplex.Object.transPoint, Komplex.Polar_at_zero.1, h08]
  · simp only [Komplex.Object.Animate, Komplex.Object.new, List.map,
      Komplex.Object.transPoint_zero]
    norm_num
  · simp [Komplex.Object.Animate, Komplex.Object.new]

/-- C9 (counterexample). At `t = 0` the per-vertex transform is not a translation of the base
vertices: no constant `c` has `p ↦ p + c` on the four vertices of the object (the images of
`(0,0)` and `(1,-1)` differ by `(1.6, -1.6)`). -/
theorem animate_at_zero_not_translation :
    ¬ ∃ c : Komplex.Complex ℝ, ∀ p ∈ (Komplex.Object.new : Komplex.Object ℝ).points,
        Komplex.Object.transPoint Real.cos Real.sin 0 p = Komplex.Complex.add p c := by
  rintro ⟨c, hc⟩
  have h0 := hc ⟨0, 0⟩ (by simp [Komplex.Object.new])
  have h1 := hc ⟨1, -1⟩ (by simp [Komplex.Object.new])
  rw [Komplex.Object.transPoint_zero] at h0 h1
  simp only [Komplex.Complex.add, Komplex.Complex.mk.injEq] at h0 h1
  linarith [h0.1, h1.1]

/-- C9 (amended). At `t = 0` the per-vertex transform of `Object::Animate` is a uniform
scaling by `1.6` (rotation angle 0) followed by a translation: every `p` is mapped to
`(1.6, 0) * p + (0.8, 3.2)`, that is `(1.6 p.x + 0.8, 1.6 p.y + 3.2)`. -/
theorem animate_at_zero_scaling (p : Komplex.Complex ℝ) :
    Komplex.Object.transPoint Real.cos Real.sin 0 p
        = Komplex.Complex.add (Komplex.Complex.mul ⟨8 / 5, 0⟩ p) ⟨4 / 5, 16 / 5⟩ ∧
      Komplex.Object.transPoint Real.cos Real.sin 0 p
        = ⟨8 / 5 * p.x + 4 / 5, 8 / 5 * p.y + 16 / 5⟩ := by
  refine ⟨?_, Komplex.Object.transPoint_zero p⟩
  rw [Komplex.Object.transPoint_zero]
  simp [Komplex.Complex.add, Komplex.Complex.mul]

/-- Over the reals `operator/` of `Clifford` is the quotient rule for every divisor with a
nonzero value, whatever its derivative; a divisor with value zero gives no result. -/
theorem Cliff.Clifford.div_eq (a r : Cliff.Clifford ℝ) :
    (r.f ≠ 0 → Cliff.Clifford.div a r = some (Cliff.Clifford.quotientRule a r)) ∧
      (r.f = 0 → Cliff.Clifford.div a r = none) := by
  constructor
  · intro hr
    have hl : r.f * r.f ≠ 0 := mul_ne_zero hr hr
    simp only [Cliff.Clifford.div, fdiv, if_neg hl, Cliff.Clifford.mul,
      Cliff.Clifford.quotientRule, bind, Option.bind, pure, Option.some.injEq]
    ext
    · show a.f * (r.f / (r.f * r.f)) = a.f / r.f
      field_simp
    · show a.f * (-r.d / (r.f * r.f)) + a.d * (r.f / (r.f * r.f))
        = (a.d * r.f - a.f * r.d) / r.f ^ 2
      field_simp
      ring
  · intro hr
    simp [Cliff.Clifford.div, fdiv, hr]

/-- C10 (counterexample). No dual numbers `a`, `r` with `r.f ≠ 0` and `r.d ≠ 0` make
`a / r` differ from the quotient rule `(a.f / r.f, (a.d·r.f - a.f·r.d) / r.f²)`. -/
theorem clifford_div_no_deviation :
    ¬ ∃ a r : Cliff.Clifford ℝ, r.f ≠ 0 ∧ r.d ≠ 0 ∧
        Cliff.Clifford.div a r ≠ some (Cliff.Clifford.quotientRule a r) := by
  rintro ⟨a, r, hf, _, hne⟩
  exact hne ((Cliff.Clifford.div_eq a r).1 hf)

/-- C10 (amended). `Clifford::operator/` is the general quotient rule: for every `a` and every
`r` with `r.f ≠ 0`, whether `r.d` is zero or not, `a / r` equals
`(a.f / r.f, (a.d·r.f - a.f·r.d) / r.f²)`. -/
theorem clifford_div_quotient_rule (a r : Cliff.Clifford ℝ) (hr : r.f ≠ 0) :
    Cliff.Clifford.div a r = some (Cliff.Clifford.quotientRule a r) ∧
      Cliff.Clifford.div a r
        = some ⟨a.f / r.f, (a.d * r.f - a.f * r.d) / r.f ^ 2⟩ :=
  ⟨(Cliff.Clifford.div_eq a r).1 hr, (Cliff.Clifford.div_eq a r).1 hr⟩

/-- Witness of C10 (amended) at `a = (1, 2)`, `r = (2, 5)`, a divisor that carries a
derivative: the quotient is `(1/2, -1/4)`. -/
theorem clifford_div_quotient_rule_witness :
    (2 : ℝ) ≠ 0 ∧
      Cliff.Clifford.div (⟨1, 2⟩ : Cliff.Clifford ℝ) ⟨2, 5⟩
        = some ⟨1 / 2, (2 * 2 - 1 * 5) / 2 ^ 2⟩ :=
  ⟨by norm_num, (clifford_div_quotient_rule ⟨1, 2⟩ ⟨2, 5⟩ (by norm_num)).2⟩

/-- Every entry of a row vector times a `mat4`, with the accumulation loop unrolled. -/
theorem Cliff.rowMul_apply {F : Type} [Field F] (v : Fin 4 → F) (mat : mat4 F) (j : Fin 4) :
    Cliff.rowMul v mat j
      = 0 + v 0 * mat.m 0 j + v 1 * mat.m 1 j + v 2 * mat.m 2 j + v 3 * mat.m 3 j := by
  simp [Cliff.rowMul, List.finRange, List.foldl]

/-- In the Clifford program a camera with nonzero extent sends the row vector
`(x, y, 0, 1)` through `V() * P()` to `((x - wCx) / wWx, (y - wCy) / wWy, 0, 1)`. -/
theorem Cliff.rowMul_MVPTransform (c : Cliff.Camera ℝ) (hx : c.wWx ≠ 0) (hy : c.wWy ≠ 0)
    (x y : ℝ) :
    Option.map (Cliff.rowMul ![x, y, 0, 1]) (Cliff.Object.MVPTransform c)
      = some ![(x - c.wCx) / c.wWx, (y - c.wCy) / c.wWy, 0, 1] := by
  simp only [Cliff.Object.MVPTransform, Cliff.Camera.P, fdiv, if_neg hx, if_neg hy, bind,
    Option.bind, pure, Option.map_some', Option.some.injEq]
  funext j
  rw [Cliff.rowMul_apply]
  simp only [mat4.mul_m]
  fin_cases j <;>
    simp [Cliff.Camera.V, mat4.ofEntries, Matrix.vecHead, Matrix.vecTail] <;> ring

/-- C11 (the code at the failing input). For the camera that `Camera::Animate` sets (centre
`(0, 0)`, extent `(10, 10)`) the corner `(wCx + wWx/2, wCy + wWy/2, 0, 1) = (5, 5, 0, 1)` times
`V() * P()` is `(1/2, 1/2, 0, 1)` and the opposite corner `(-5, -5, 0, 1)` goes to
`(-1/2, -1/2, 0, 1)`: the window is mapped onto a square of edge length 1, and the image of
the corner is not `(1, 1, 0, 1)`. -/
theorem clifford_window_corner_half (c : Cliff.Camera ℝ) (t : ℝ) :
    Cliff.Camera.Animate c t = ⟨0, 0, 10, 10⟩ ∧
    Option.map (Cliff.rowMul ![0 + 10 / 2, 0 + 10 / 2, 0, 1])
        (Cliff.Object.MVPTransform (Cliff.Camera.Animate c t))
      = some ![1 / 2, 1 / 2, 0, 1] ∧
    Option.map (Cliff.rowMul ![0 - 10 / 2, 0 - 10 / 2, 0, 1])
        (Cliff.Object.MVPTransform (Cliff.Camera.Animate c t))
      = some ![-1 / 2, -1 / 2, 0, 1] ∧
    Option.map (Cliff.rowMul ![0 + 10 / 2, 0 + 10 / 2, 0, 1])
        (Cliff.Object.MVPTransform (Cliff.Camera.Animate c t))
      ≠ some ![1, 1, 0, 1] := by
  have h10 : (10 : ℝ) ≠ 0 := by norm_num
  have hA : Cliff.Camera.Animate c t = ⟨0, 0, 10, 10⟩ := rfl
  have h1 := Cliff.rowMul_MVPTransform ⟨0, 0, 10, 10⟩ h10 h10 (0 + 10 / 2) (0 + 10 / 2)
  have h2 := Cliff.rowMul_MVPTransform ⟨0, 0, 10, 10⟩ h10 h10 (0 - 10 / 2) (0 - 10 / 2)
  have e1 : (![(0 + 10 / 2 - 0) / 10, (0 + 10 / 2 - 0) / 10, 0, 1] : Fin 4 → ℝ)
      = ![1 / 2, 1 / 2, 0, 1] := by norm_num
  have e2 : (![(0 - 10 / 2 - 0) / 10, (0 - 10 / 2 - 0) / 10, 0, 1] : Fin 4 → ℝ)
      = ![-1 / 2, -1 / 2, 0, 1] := by norm_num
  simp only [e1] at h1
  simp only [e2] at h2
  refine ⟨hA, ?_, ?_, ?_⟩
  · rw [hA]; exact h1
  · rw [hA]; exact h2
  · rw [hA, h1]
    intro h
    have h0 := congrFun (Option.some.inj h) 0
    norm_num at h0

/-- The tangent length that `Object::Animate` computes from `Path(t)` is `3` for every real
`t`. -/
theorem Cliff.tangentLength_eq (t : ℝ) :
    Real.sqrt ((Cliff.Path Real.sin Real.cos t).1.d * (Cliff.Path Real.sin Real.cos t).1.d
      + (Cliff.Path Real.sin Real.cos t).2.d * (Cliff.Path Real.sin Real.cos t).2.d) = 3 := by
  rw [Cliff.Path_eq]
  have h : (3 * Real.cos t) * (3 * Real.cos t) + (-(3 * Real.sin t)) * (-(3 * Real.sin t))
      = (3 : ℝ) ^ 2 := by
    nlinarith [Real.sin_sq_add_cos_sq t]
  show Real.sqrt ((3 * Real.cos t) * (3 * Real.cos t)
    + (-(3 * Real.sin t)) * (-(3 * Real.sin t))) = 3
  rw [h]
  exact Real.sqrt_sq (by norm_num)

/-- C12. Tangent normalization in the Clifford program never divides by zero: for every real
`t` the tangent length `sqrt(x.d² + y.d²)` of `Path(t)` is `3`, so it is nonzero and
`Object::Animate(t)` produces a result, the point `(3 sin t, 3 cos t)` with the tangent
`(cos t, -sin t)`; this tangent has length 1 and is perpendicular to the point. -/
theorem animate_tangent (t : ℝ) :
    Real.sqrt ((Cliff.Path Real.sin Real.cos t).1.d * (Cliff.Path Real.sin Real.cos t).1.d
      + (Cliff.Path Real.sin Real.cos t).2.d * (Cliff.Path Real.sin Real.cos t).2.d) = 3 ∧
    Real.sqrt ((Cliff.Path Real.sin Real.cos t).1.d * (Cliff.Path Real.sin Real.cos t).1.d
      + (Cliff.Path Real.sin Real.cos t).2.d * (Cliff.Path Real.sin Real.cos t).2.d) ≠ 0 ∧
    Cliff.Object.Animate Real.sin Real.cos Real.sqrt t
      = some (⟨3 * Real.sin t, 3 * Real.cos t⟩, ⟨Real.cos t, -Real.sin t⟩) ∧
    Real.cos t ^ 2 + (-Real.sin t) ^ 2 = 1 ∧
    Real.cos t * (3 * Real.sin t) + (-Real.sin t) * (3 * Real.cos t) = 0 := by
  have hlen := Cliff.tangentLength_eq t
  refine ⟨hlen, ?_, ?_, ?_, ?_⟩
  · rw [hlen]
    norm_num
  · have h3 : (3 : ℝ) ≠ 0 := by norm_num
    have hP := Cliff.Path_eq t
    simp only [Cliff.Object.Animate]
    rw [hlen]
    simp only [hP, fdiv, if_neg h3, bind, Option.bind, pure, Option.some.injEq]
    refine Prod.ext rfl (Cliff.vec2.ext ?_ ?_)
    · show 3 * Real.cos t / 3 = Real.cos t
      field_simp
    · show -(3 * Real.sin t) / 3 = -Real.sin t
      field_simp
      ring
  · nlinarith [Real.sin_sq_add_cos_sq t]
  · ring

/-- C13. Dual-number round trip: for every `a` and every `r` with `r.f ≠ 0`, whatever `r.d`
is, `(a * r) / r = a` in both components and `(a / r) * r = a`. -/
theorem clifford_mul_div_cancel (a r : Cliff.Clifford ℝ) (hr : r.f ≠ 0) :
    Cliff.Clifford.div (Cliff.Clifford.mul a r) r = some a ∧
      Option.map (fun q => Cliff.Clifford.mul q r) (Cliff.Clifford.div a r) = some a := by
  constructor
  · rw [(Cliff.Clifford.div_eq (Cliff.Clifford.mul a r) r).1 hr]
    simp only [Cliff.Clifford.quotientRule, Cliff.Clifford.mul, Option.some.injEq]
    ext
    · show a.f * r.f / r.f = a.f
      field_simp
    · show ((a.f * r.d + a.d * r.f) * r.f - a.f * r.f * r.d) / r.f ^ 2 = a.d
      field_simp
      ring
  · rw [(Cliff.Clifford.div_eq a r).1 hr]
    simp only [Cliff.Clifford.quotientRule, Cliff.Clifford.mul, Option.map_some',
      Option.some.injEq]
    ext
    · show a.f / r.f * r.f = a.f
      field_simp
    · show a.f / r.f * r.d + (a.d * r.f - a.f * r.d) / r.f ^ 2 * r.f = a.d
      field_simp
      ring

/-- Witness of C13 at `a = (1, 2)` and the divisor `r = (2, 5)`, which carries a
derivative. -/
theorem clifford_mul_div_cancel_witness :
    (2 : ℝ) ≠ 0 ∧
      (Cliff.Clifford.div (Cliff.Clifford.mul (⟨1, 2⟩ : Cliff.Clifford ℝ) ⟨2, 5⟩) ⟨2, 5⟩
          = some ⟨1, 2⟩ ∧
        Option.map (fun q => Cliff.Clifford.mul q ⟨2, 5⟩)
          (Cliff.Clifford.div (⟨1, 2⟩ : Cliff.Clifford ℝ) ⟨2, 5⟩) = some ⟨1, 2⟩) :=
  ⟨by norm_num, clifford_mul_div_cancel ⟨1, 2⟩ ⟨2, 5⟩ (by norm_num)⟩

/-- The difference of two transformed vertices, in coordinates: the pivot and the translation
cancel, and the two polar factors combine to the scale `1.6` and the angle `t/2`. -/
theorem Komplex.Object.transPoint_sub (t : ℝ) (p q : Komplex.Complex ℝ) :
    Komplex.Complex.sub (Komplex.Object.transPoint Real.cos Real.sin t p)
        (Komplex.Object.transPoint Real.cos Real.sin t q)
      = ⟨8 / 5 * ((p.x - q.x) * Real.cos (t / 2) - (p.y - q.y) * Real.sin (t / 2)),
         8 / 5 * ((p.x - q.x) * Real.sin (t / 2) + (p.y - q.y) * Real.cos (t / 2))⟩ := by
  have hc : Real.cos t * Real.cos (t / 2) + Real.sin t * Real.sin (t / 2) = Real.cos (t / 2) := by
    rw [← Real.cos_sub]
    congr 1
    ring
  have hs : Real.sin t * Real.cos (t / 2) - Real.cos t * Real.sin (t / 2) = Real.sin (t / 2) := by
    rw [← Real.sin_sub]
    congr 1
    ring
  simp only [Komplex.Object.transPoint, Komplex.Polar, Komplex.Complex.mul, Komplex.Complex.add,
    Komplex.Complex.sub, neg_div, Real.cos_neg, Real.sin_neg]
  ext
  · simp only []
    norm_num
    linear_combination (8 / 5 * (p.x - q.x)) * hc - (8 / 5 * (p.y - q.y)) * hs
  · simp only []
    norm_num
    linear_combination (8 / 5 * (p.x - q.x)) * hs + (8 / 5 * (p.y - q.y)) * hc

/-- C14. The per-vertex transform of the complex-number program is a similarity with scale
factor `1.6` at every time `t`: `T_t(p) - T_t(q) = (p - q) * Polar(1.6, t/2)`, hence
`|T_t(p) - T_t(q)|² = 2.56 · |p - q|²`; and the list `Object::Animate(t)` produces has the
length of the base vertex list, its entry `i` being the transform of base vertex `i`. -/
theorem animate_similarity (t : ℝ) (p q : Komplex.Complex ℝ) (o : Komplex.Object ℝ) :
    Komplex.Complex.sub (Komplex.Object.transPoint Real.cos Real.sin t p)
        (Komplex.Object.transPoint Real.cos Real.sin t q)
      = Komplex.Complex.mul (Komplex.Complex.sub p q)
          (Komplex.Polar Real.cos Real.sin 1.6 (t / 2)) ∧
    (Komplex.Complex.sub (Komplex.Object.transPoint Real.cos Real.sin t p)
        (Komplex.Object.transPoint Real.cos Real.sin t q)).x ^ 2
      + (Komplex.Complex.sub (Komplex.Object.transPoint Real.cos Real.sin t p)
        (Komplex.Object.transPoint Real.cos Real.sin t q)).y ^ 2
      = 2.56 * ((Komplex.Complex.sub p q).x ^ 2 + (Komplex.Complex.sub p q).y ^ 2) ∧
    (Komplex.Object.Animate Real.cos Real.sin o t).length = o.points.length ∧
    ∀ i : ℕ, (Komplex.Object.Animate Real.cos Real.sin o t)[i]?
      = Option.map (Komplex.Object.transPoint Real.cos Real.sin t) o.points[i]? := by
  refine ⟨?_, ?_, ?_, ?_⟩
  · rw [Komplex.Object.transPoint_sub]
    simp only [Komplex.Complex.mul, Komplex.Complex.sub, Komplex.Polar]
    ext
    · simp only []
      norm_num
      ring
    · simp only []
      norm_num
      ring
  · rw [Komplex.Object.transPoint_sub]
    simp only [Komplex.Complex.sub]
    norm_num
    nlinarith [Real.sin_sq_add_cos_sq (t / 2)]
  · simp [Komplex.Object.Animate]
  · intro i
    simp [Komplex.Object.Animate]
